import Mathlib

/-!
Formal model of the agilira/go-crypto library.

Byte strings are modelled as `List Nat`, where a well-formed byte is a value
below 256. Go strings that carry encoded data (base64 / hex text) are also
modelled as lists of their ASCII byte codes.

The library's own functions (`EncryptBytes`, `DecryptBytes`, `DeriveKey`,
`DeriveKeyWithParams`, `DeriveKeyPBKDF2`, `GetKeyFingerprint`, the key
import/export helpers) are translated directly from the repository source.
External primitives they call are handled as follows:
- `encoding/base64` (standard padded alphabet) and `encoding/hex` are
  implemented concretely below (the model decodes strictly; it does not skip
  CR/LF characters, which the claims never exercise);
- AES-GCM (`crypto/cipher`, 12-byte nonce, 16-byte tag) is implemented
  concretely per NIST SP 800-38D, parameterised by the AES-256 block function
  (`crypto/aes`), which is passed in as an explicit function argument together
  with its interface contract (16-byte output blocks of byte values);
- SHA-256, HMAC-SHA256 and PBKDF2 (`crypto/sha256`, `x/crypto/pbkdf2`) are
  implemented concretely per their standards;
- Argon2id (`x/crypto/argon2`, function `argon2.IDKey`) is passed in as an
  explicit function argument; its documented contract (the output has exactly
  the requested length) appears as a hypothesis where a claim needs it.
-/

namespace GoCrypto

/-- IsBytes l states every element of l is a byte value (below 256). -/
def IsBytes (l : List Nat) : Prop := ∀ x ∈ l, x < 256

instance (l : List Nat) : Decidable (IsBytes l) := by
  unfold IsBytes; infer_instance

/-! ### encoding/base64, standard padded alphabet -/

/-- base64EncChar maps a 6-bit value to the ASCII code of its character in the
standard base64 alphabet `A-Z a-z 0-9 + /` (Go `encoding/base64`, `StdEncoding`
encode table). -/
def base64EncChar (s : Nat) : Nat :=
  if s < 26 then 65 + s
  else if s < 52 then 97 + (s - 26)
  else if s < 62 then 48 + (s - 52)
  else if s = 62 then 43
  else 47

/-- base64DecChar maps an ASCII code to its 6-bit value in the standard base64
alphabet, `none` for codes outside the alphabet (Go `encoding/base64`
decode map). -/
def base64DecChar (c : Nat) : Option Nat :=
  if 65 ≤ c ∧ c ≤ 90 then some (c - 65)
  else if 97 ≤ c ∧ c ≤ 122 then some (c - 97 + 26)
  else if 48 ≤ c ∧ c ≤ 57 then some (c - 48 + 52)
  else if c = 43 then some 62
  else if c = 47 then some 63
  else none

/-- padByte is the ASCII code of the base64 padding character `=`. -/
def padByte : Nat := 61

/-- base64EncodeStd encodes a byte list using standard padded base64
(Go `base64.StdEncoding.EncodeToString`); the output is the list of ASCII
codes of the encoded string. -/
def base64EncodeStd : List Nat → List Nat
  | [] => []
  | [a] => [base64EncChar (a >>> 2), base64EncChar ((a &&& 3) <<< 4), padByte, padByte]
  | [a, b] => [base64EncChar (a >>> 2), base64EncChar (((a &&& 3) <<< 4) ||| (b >>> 4)),
      base64EncChar ((b &&& 15) <<< 2), padByte]
  | a :: b :: c :: rest =>
      base64EncChar (a >>> 2) :: base64EncChar (((a &&& 3) <<< 4) ||| (b >>> 4)) ::
      base64EncChar (((b &&& 15) <<< 2) ||| (c >>> 6)) :: base64EncChar (c &&& 63) ::
      base64EncodeStd rest

/-- base64DecodeStd decodes a standard padded base64 string, given as its list
of ASCII codes (Go `base64.StdEncoding.DecodeString`): the length must be a
multiple of four, padding may appear only in the final quantum, and every
other character must belong to the alphabet. -/
def base64DecodeStd : List Nat → Option (List Nat)
  | [] => some []
  | c0 :: c1 :: c2 :: c3 :: rest =>
      match base64DecChar c0, base64DecChar c1 with
      | some s0, some s1 =>
          if c3 = padByte then
            if rest = [] then
              if c2 = padByte then some [(s0 <<< 2) ||| (s1 >>> 4)]
              else match base64DecChar c2 with
                | some s2 =>
                    some [(s0 <<< 2) ||| (s1 >>> 4), ((s1 &&& 15) <<< 4) ||| (s2 >>> 2)]
                | none => none
            else none
          else
            match base64DecChar c2, base64DecChar c3 with
            | some s2, some s3 =>
                (base64DecodeStd rest).map (fun bs =>
                  ((s0 <<< 2) ||| (s1 >>> 4)) :: (((s1 &&& 15) <<< 4) ||| (s2 >>> 2)) ::
                  (((s2 &&& 3) <<< 6) ||| s3) :: bs)
            | _, _ => none
      | _, _ => none
  | _ => none

/-! ### encoding/hex -/

/-- hexDigit maps a 4-bit value to the ASCII code of its lowercase hex digit
(Go `encoding/hex` table "0123456789abcdef"). -/
def hexDigit (n : Nat) : Nat := if n < 10 then 48 + n else 87 + n

/-- hexEncode encodes a byte list as lowercase hex text, two digits per byte
(Go `hex.EncodeToString`), as a list of ASCII codes. -/
def hexEncode : List Nat → List Nat
  | [] => []
  | b :: rest => hexDigit (b >>> 4) :: hexDigit (b &&& 15) :: hexEncode rest

/-- hexDecChar maps an ASCII code to its 4-bit value, accepting digits and both
lowercase and uppercase letters (Go `encoding/hex` fromHexChar). -/
def hexDecChar (c : Nat) : Option Nat :=
  if 48 ≤ c ∧ c ≤ 57 then some (c - 48)
  else if 97 ≤ c ∧ c ≤ 102 then some (c - 97 + 10)
  else if 65 ≤ c ∧ c ≤ 70 then some (c - 65 + 10)
  else none

/-- hexDecode decodes hex text given as its list of ASCII codes
(Go `hex.DecodeString`): the length must be even and every character a hex
digit. -/
def hexDecode : List Nat → Option (List Nat)
  | [] => some []
  | c0 :: c1 :: rest =>
      match hexDecChar c0, hexDecChar c1 with
      | some hi, some lo => (hexDecode rest).map (fun bs => ((hi <<< 4) ||| lo) :: bs)
      | _, _ => none
  | _ => none

/-! ### AES-GCM (crypto/cipher, NIST SP 800-38D), parameterised by the block
function. `E : List Nat → List Nat` stands for one AES-256 block encryption
under a fixed key; its interface contract (every output is a 16-byte block of
byte values) is a hypothesis of the theorems that need it. -/

/-- bytesToNatBE reads a byte list as a big-endian natural number. -/
def bytesToNatBE (l : List Nat) : Nat := l.foldl (fun acc b => acc * 256 + b) 0

/-- natToBytesBE writes the low `w` bytes of a natural number in big-endian
order. -/
def natToBytesBE (w n : Nat) : List Nat :=
  (List.range w).map (fun i => (n >>> (8 * (w - 1 - i))) % 256)

/-- xorBytes xors two byte lists pointwise, truncating to the shorter one. -/
def xorBytes (a b : List Nat) : List Nat := List.zipWith (fun x y => x ^^^ y) a b

/-- gcmR is the GCM reduction constant: the byte 0xe1 followed by fifteen zero
bytes, read as a 128-bit big-endian value. -/
def gcmR : Nat := 0xe1 <<< 120

/-- gfmul128 multiplies two elements of GF(2^128) in the GCM bit ordering
(NIST SP 800-38D algorithm 1; Go crypto/cipher implements the same product via
precomputed tables). -/
def gfmul128 (x y : Nat) : Nat :=
  ((List.range 128).foldl (fun zv i =>
      let z := zv.1
      let v := zv.2
      let z' := if (x >>> (127 - i)) &&& 1 = 1 then z ^^^ v else z
      let v' := if v &&& 1 = 1 then (v >>> 1) ^^^ gcmR else v >>> 1
      (z', v')) (0, y)).1

/-- ghashFoldN runs the GHASH accumulator over `n` 16-byte chunks of a byte
string in the subfield generated by `hsub` (callers always pass data padded to
a multiple of 16 bytes and `n` its number of blocks). -/
def ghashFoldN (hsub : Nat) : Nat → List Nat → Nat → Nat
  | y, _, 0 => y
  | y, data, n + 1 =>
      ghashFoldN hsub (gfmul128 (y ^^^ bytesToNatBE (data.take 16)) hsub) (data.drop 16) n

/-- ghashFold runs the GHASH accumulator over a whole byte string. -/
def ghashFold (hsub y : Nat) (data : List Nat) : Nat :=
  ghashFoldN hsub y data ((data.length + 15) / 16)

/-- pad16 pads a byte list with zero bytes to a multiple of 16 bytes. -/
def pad16 (l : List Nat) : List Nat := l ++ List.replicate ((16 - l.length % 16) % 16) 0

/-- gcmAuth computes the GHASH of a ciphertext with empty associated data:
the padded ciphertext followed by the 64-bit bit lengths of the (empty)
associated data and of the ciphertext. -/
def gcmAuth (hsub : Nat) (ct : List Nat) : Nat :=
  ghashFold hsub 0 (pad16 ct ++ natToBytesBE 8 0 ++ natToBytesBE 8 ((ct.length * 8) % 2 ^ 64))

/-- gcmNonceSize is the standard GCM nonce size used by Go `cipher.NewGCM`. -/
def gcmNonceSize : Nat := 12

/-- gcmTagSize is the GCM authentication tag size. -/
def gcmTagSize : Nat := 16

/-- gcmJ0 derives the pre-counter block from a 12-byte nonce: the nonce
followed by the 32-bit big-endian value 1. -/
def gcmJ0 (nonce : List Nat) : List Nat := nonce ++ [0, 0, 0, 1]

/-- gcmInc32 increments the last 32 bits of a counter block, big-endian,
wrapping modulo 2^32 (Go crypto/cipher gcmInc32). -/
def gcmInc32 (ctr : List Nat) : List Nat :=
  ctr.take 12 ++ natToBytesBE 4 ((bytesToNatBE (ctr.drop 12) + 1) % 2 ^ 32)

/-- gcmCounterBlocks produces `n` consecutive keystream blocks: the block
function applied to successive counter values. -/
def gcmCounterBlocks (E : List Nat → List Nat) (ctr : List Nat) : Nat → List Nat
  | 0 => []
  | n + 1 => E ctr ++ gcmCounterBlocks E (gcmInc32 ctr) n

/-- gcmKeystream is the first `n` bytes of the counter-mode keystream starting
at counter `ctr`. -/
def gcmKeystream (E : List Nat → List Nat) (ctr : List Nat) (n : Nat) : List Nat :=
  (gcmCounterBlocks E ctr ((n + 15) / 16)).take n

/-- gcmSeal seals a plaintext under a 12-byte nonce with empty associated
data, returning ciphertext followed by the 16-byte tag (Go `gcm.Seal` with an
empty destination; the repository prepends the nonce itself). -/
def gcmSeal (E : List Nat → List Nat) (nonce pt : List Nat) : List Nat :=
  let j0 := gcmJ0 nonce
  let tagMask := E j0
  let hsub := bytesToNatBE (E (List.replicate 16 0))
  let ct := xorBytes pt (gcmKeystream E (gcmInc32 j0) pt.length)
  let tag := xorBytes (natToBytesBE 16 (gcmAuth hsub ct)) tagMask
  ct ++ tag

/-- gcmOpen checks the tag at the end of the sealed input and, on success,
returns the decrypted plaintext; `none` models Go `gcm.Open` returning its
error (too-short input or authentication failure). -/
def gcmOpen (E : List Nat → List Nat) (nonce data : List Nat) : Option (List Nat) :=
  if data.length < gcmTagSize then none
  else
    let ct := data.take (data.length - gcmTagSize)
    let tag := data.drop (data.length - gcmTagSize)
    let j0 := gcmJ0 nonce
    let tagMask := E j0
    let hsub := bytesToNatBE (E (List.replicate 16 0))
    let expectedTag := xorBytes (natToBytesBE 16 (gcmAuth hsub ct)) tagMask
    if tag = expectedTag then some (xorBytes ct (gcmKeystream E (gcmInc32 j0) ct.length))
    else none

/-! ### encryption.go -/

/-- KeySize is the required key size for AES-256 encryption in bytes. -/
def KeySize : Nat := 32

/-- CryptoErr enumerates the sentinel errors of encryption.go (each Go error
value wraps a rich error; the model keeps the sentinel identity). -/
inductive CryptoErr where
  | invalidKeySize
  | emptyPlaintext
  | cipherInit
  | gcmInit
  | nonceGen
  | base64Decode
  | ciphertextShort
  | decryptFailed
  deriving DecidableEq, Repr

/-- EncryptBytes translates encryption.go EncryptBytes. The AES-256 block
primitive appears as the explicit argument `aes` (key to block function), and
the freshly generated random nonce as the explicit argument `nonce`; with a
32-byte key, `aes.NewCipher` and `cipher.NewGCM` cannot fail, so the model
returns the base64-encoded envelope `nonce ++ sealed`. -/
def EncryptBytes (aes : List Nat → List Nat → List Nat) (nonce plaintext key : List Nat) :
    Except CryptoErr (List Nat) :=
  if key.length ≠ KeySize then .error .invalidKeySize
  else .ok (base64EncodeStd (nonce ++ gcmSeal (aes key) nonce plaintext))

/-- DecryptBytes translates encryption.go DecryptBytes: key-size check, empty
input check, base64 decode, nonce-length check, then GCM open. -/
def DecryptBytes (aes : List Nat → List Nat → List Nat) (encryptedText key : List Nat) :
    Except CryptoErr (List Nat) :=
  if key.length ≠ KeySize then .error .invalidKeySize
  else if encryptedText = [] then .error .emptyPlaintext
  else
    match base64DecodeStd encryptedText with
    | none => .error .base64Decode
    | some ciphertext =>
        if ciphertext.length < gcmNonceSize then .error .ciphertextShort
        else
          match gcmOpen (aes key) (ciphertext.take gcmNonceSize)
              (ciphertext.drop gcmNonceSize) with
          | none => .error .decryptFailed
          | some plaintext => .ok plaintext

/-- Encrypt translates encryption.go Encrypt, the string convenience wrapper
around EncryptBytes (a Go string is its byte sequence). -/
def Encrypt (aes : List Nat → List Nat → List Nat) (nonce plaintext key : List Nat) :
    Except CryptoErr (List Nat) :=
  EncryptBytes aes nonce plaintext key

/-- Decrypt translates encryption.go Decrypt, the string convenience wrapper
around DecryptBytes. -/
def Decrypt (aes : List Nat → List Nat → List Nat) (encryptedText key : List Nat) :
    Except CryptoErr (List Nat) :=
  DecryptBytes aes encryptedText key

/-! ### SHA-256 (FIPS 180-4, Go crypto/sha256) -/

/-- w32 truncates a natural number to 32 bits. -/
def w32 (n : Nat) : Nat := n % 2 ^ 32

/-- rotr32 rotates a 32-bit value right by `n` bits. -/
def rotr32 (n x : Nat) : Nat := ((x >>> n) ||| (x <<< (32 - n))) % 2 ^ 32

/-- sha256K is the table of SHA-256 round constants. -/
def sha256K : List Nat :=
  [1116352408, 1899447441, 3049323471, 3921009573, 961987163, 1508970993, 2453635748,
   2870763221, 3624381080, 310598401, 607225278, 1426881987, 1925078388, 2162078206,
   2614888103, 3248222580, 3835390401, 4022224774, 264347078, 604807628, 770255983, 1249150122,
   1555081692, 1996064986, 2554220882, 2821834349, 2952996808, 3210313671, 3336571891,
   3584528711, 113926993, 338241895, 666307205, 773529912, 1294757372, 1396182291, 1695183700,
   1986661051, 2177026350, 2456956037, 2730485921, 2820302411, 3259730800, 3345764771,
   3516065817, 3600352804, 4094571909, 275423344, 430227734, 506948616, 659060556, 883997877,
   958139571, 1322822218, 1537002063, 1747873779, 1955562222, 2024104815, 2227730452,
   2361852424, 2428436474, 2756734187, 3204031479, 3329325298]

/-- sha256H0 is the SHA-256 initial hash state. -/
def sha256H0 : List Nat :=
  [1779033703, 3144134277, 1013904242, 2773480762, 1359893119, 2600822924, 528734635,
   1541459225]

/-- bytesToWordsBE packs bytes into 32-bit big-endian words, four at a time. -/
def bytesToWordsBE : List Nat → List Nat
  | b0 :: b1 :: b2 :: b3 :: rest =>
      ((b0 <<< 24) ||| (b1 <<< 16) ||| (b2 <<< 8) ||| b3) :: bytesToWordsBE rest
  | _ => []

/-- sha256Extend appends `n` message-schedule words to the given word list
following the SHA-256 recurrence. -/
def sha256Extend : List Nat → Nat → List Nat
  | ws, 0 => ws
  | ws, n + 1 =>
      let t := ws.length
      let w15 := ws.getD (t - 15) 0
      let w2 := ws.getD (t - 2) 0
      let s0 := rotr32 7 w15 ^^^ rotr32 18 w15 ^^^ (w15 >>> 3)
      let s1 := rotr32 17 w2 ^^^ rotr32 19 w2 ^^^ (w2 >>> 10)
      sha256Extend (ws ++ [w32 (ws.getD (t - 16) 0 + s0 + ws.getD (t - 7) 0 + s1)]) n

/-- sha256Compress runs the 64-round SHA-256 compression function on one
64-byte block. -/
def sha256Compress (hst block : List Nat) : List Nat :=
  let ws := sha256Extend (bytesToWordsBE block) 48
  let final := (List.range 64).foldl
    (fun st t =>
      let (a, b, c, d, e, f, g, hh) := st
      let bigS1 := rotr32 6 e ^^^ rotr32 11 e ^^^ rotr32 25 e
      let ch := (e &&& f) ^^^ ((e ^^^ 0xffffffff) &&& g)
      let temp1 := w32 (hh + bigS1 + ch + sha256K.getD t 0 + ws.getD t 0)
      let bigS0 := rotr32 2 a ^^^ rotr32 13 a ^^^ rotr32 22 a
      let maj := (a &&& b) ^^^ (a &&& c) ^^^ (b &&& c)
      let temp2 := w32 (bigS0 + maj)
      (w32 (temp1 + temp2), a, b, c, w32 (d + temp1), e, f, g))
    (hst.getD 0 0, hst.getD 1 0, hst.getD 2 0, hst.getD 3 0, hst.getD 4 0, hst.getD 5 0,
     hst.getD 6 0, hst.getD 7 0)
  List.zipWith (fun x y => w32 (x + y)) hst
    [final.1, final.2.1, final.2.2.1, final.2.2.2.1, final.2.2.2.2.1, final.2.2.2.2.2.1,
     final.2.2.2.2.2.2.1, final.2.2.2.2.2.2.2]

/-- sha256Pad appends the SHA-256 padding: a 0x80 byte, zero bytes to 56 mod
64, and the 64-bit big-endian bit length. -/
def sha256Pad (msg : List Nat) : List Nat :=
  msg ++ 128 :: List.replicate ((119 - msg.length % 64) % 64) 0 ++
    natToBytesBE 8 ((msg.length * 8) % 2 ^ 64)

/-- sha256BlocksN folds the compression function over `n` successive 64-byte
blocks (the padded message always holds exactly `n` of them). -/
def sha256BlocksN : List Nat → List Nat → Nat → List Nat
  | hst, _, 0 => hst
  | hst, msg, n + 1 => sha256BlocksN (sha256Compress hst (msg.take 64)) (msg.drop 64) n

/-- sha256Blocks folds the compression function over a whole padded message. -/
def sha256Blocks (hst msg : List Nat) : List Nat :=
  sha256BlocksN hst msg ((msg.length + 63) / 64)

/-- sha256 computes the SHA-256 digest of a byte list as 32 bytes. -/
def sha256 (msg : List Nat) : List Nat :=
  ((sha256Blocks sha256H0 (sha256Pad msg)).map (natToBytesBE 4)).flatten

/-! ### HMAC-SHA256 and PBKDF2 (x/crypto/pbkdf2 with sha256.New) -/

/-- hmacSha256 computes HMAC-SHA256 (FIPS 198-1 with a 64-byte block). -/
def hmacSha256 (key msg : List Nat) : List Nat :=
  let k0 := if key.length > 64 then sha256 key else key
  let kpad := k0 ++ List.replicate (64 - k0.length) 0
  sha256 ((kpad.map (fun b => b ^^^ 0x5c)) ++
    sha256 ((kpad.map (fun b => b ^^^ 0x36)) ++ msg))

/-- pbkdf2Iter applies `n` further HMAC rounds, xoring each output into the
accumulator (the `U_j` / `T_i` recurrence of PBKDF2). -/
def pbkdf2Iter (password : List Nat) : Nat → List Nat × List Nat → List Nat × List Nat
  | 0, ut => ut
  | n + 1, (u, t) =>
      let u' := hmacSha256 password u
      pbkdf2Iter password n (u', xorBytes t u')

/-- pbkdf2Block computes block `T_i` of PBKDF2-HMAC-SHA256 with `iter`
iterations. -/
def pbkdf2Block (password salt : List Nat) (iter i : Nat) : List Nat :=
  let u1 := hmacSha256 password (salt ++ natToBytesBE 4 i)
  (pbkdf2Iter password (iter - 1) (u1, u1)).2

/-- pbkdf2BlocksFrom concatenates `n` PBKDF2 blocks starting at index `i`. -/
def pbkdf2BlocksFrom (password salt : List Nat) (iter : Nat) : Nat → Nat → List Nat
  | _, 0 => []
  | i, n + 1 => pbkdf2Block password salt iter i ++ pbkdf2BlocksFrom password salt iter (i + 1) n

/-- pbkdf2Key translates `pbkdf2.Key(password, salt, iter, keyLen, sha256.New)`:
the first `keyLen` bytes of `T_1 || T_2 || ...` with 32-byte blocks. -/
def pbkdf2Key (password salt : List Nat) (iter keyLen : Nat) : List Nat :=
  (pbkdf2BlocksFrom password salt iter 1 ((keyLen + 31) / 32)).take keyLen

/-! ### kdf.go -/

/-- DefaultTime is the default number of Argon2id iterations. -/
def DefaultTime : Nat := 3

/-- DefaultMemory is the default Argon2id memory usage in MB. -/
def DefaultMemory : Nat := 64

/-- DefaultThreads is the default number of Argon2id threads. -/
def DefaultThreads : Nat := 4

/-- KdfErr enumerates the error codes produced by kdf.go. -/
inductive KdfErr where
  | emptyPassword
  | emptySalt
  | invalidKeyLen
  | invalidTime
  | invalidMemory
  | invalidThreads
  | invalidIterations
  deriving DecidableEq, Repr

/-- KDFParams models the Go struct of the same name; Time and Memory are
uint32 fields and Threads a uint8 field, so a well-formed value satisfies
`KDFParams.WF` below. -/
structure KDFParams where
  Time : Nat
  Memory : Nat
  Threads : Nat
  deriving DecidableEq, Repr

/-- WF states the fields of a KDFParams value fit their Go integer types. -/
def KDFParams.WF (p : KDFParams) : Prop :=
  p.Time < 2 ^ 32 ∧ p.Memory < 2 ^ 32 ∧ p.Threads < 2 ^ 8

/-- ArgonFn is the shape of the external Argon2id primitive `argon2.IDKey`:
password, salt, time, memory (KB), threads, key length, producing the derived
key. -/
abbrev ArgonFn := List Nat → List Nat → Nat → Nat → Nat → Nat → List Nat

/-- ArgonLen is the documented contract of `argon2.IDKey`: the output has
exactly the requested length. -/
def ArgonLen (idKey : ArgonFn) : Prop :=
  ∀ password salt time memory threads keyLen,
    (idKey password salt time memory threads keyLen).length = keyLen

/-- DeriveKey translates kdf.go DeriveKey, with the external Argon2id
primitive as the explicit argument `idKey`. `keyLen` is a Go int, modelled as
an unbounded integer; the Go conversion `uint32(keyLen)` and the uint32
product `params.Memory * 1024` reduce modulo 2^32. A nil params pointer is
`none`. -/
def DeriveKey (idKey : ArgonFn) (password salt : List Nat) (keyLen : Int)
    (params : Option KDFParams) : Except KdfErr (List Nat) :=
  if password.length = 0 then .error .emptyPassword
  else if salt.length = 0 then .error .emptySalt
  else if keyLen ≤ 0 then .error .invalidKeyLen
  else
    let time := match params with
      | some p => if p.Time > 0 then p.Time else DefaultTime
      | none => DefaultTime
    let memory := match params with
      | some p => if p.Memory > 0 then p.Memory * 1024 % 2 ^ 32 else DefaultMemory * 1024
      | none => DefaultMemory * 1024
    let threads := match params with
      | some p => if p.Threads > 0 then p.Threads else DefaultThreads
      | none => DefaultThreads
    .ok (idKey password salt time memory threads (keyLen.toNat % 2 ^ 32))

/-- DeriveKeyDefault translates kdf.go DeriveKeyDefault. -/
def DeriveKeyDefault (idKey : ArgonFn) (password salt : List Nat) (keyLen : Int) :
    Except KdfErr (List Nat) :=
  DeriveKey idKey password salt keyLen none

/-- DeriveKeyWithParams translates kdf.go DeriveKeyWithParams; the four numeric
parameters are Go ints, converted with `uint32(..)` / `uint8(..)` after the
positivity checks, and the memory is scaled from MB to KB in int arithmetic
before the conversion. -/
def DeriveKeyWithParams (idKey : ArgonFn) (password salt : List Nat)
    (time memoryMB threads keyLen : Int) : Except KdfErr (List Nat) :=
  if password.length = 0 then .error .emptyPassword
  else if salt.length = 0 then .error .emptySalt
  else if time ≤ 0 then .error .invalidTime
  else if memoryMB ≤ 0 then .error .invalidMemory
  else if threads ≤ 0 then .error .invalidThreads
  else if keyLen ≤ 0 then .error .invalidKeyLen
  else
    .ok (idKey password salt (time.toNat % 2 ^ 32) ((memoryMB * 1024).toNat % 2 ^ 32)
      (threads.toNat % 2 ^ 8) (keyLen.toNat % 2 ^ 32))

/-- DeriveKeyPBKDF2 translates kdf.go DeriveKeyPBKDF2, with the concrete
PBKDF2-HMAC-SHA256 model above as the primitive. -/
def DeriveKeyPBKDF2 (password salt : List Nat) (iterations keyLen : Int) :
    Except KdfErr (List Nat) :=
  if password.length = 0 then .error .emptyPassword
  else if salt.length = 0 then .error .emptySalt
  else if iterations ≤ 0 then .error .invalidIterations
  else if keyLen ≤ 0 then .error .invalidKeyLen
  else .ok (pbkdf2Key password salt iterations.toNat keyLen.toNat)

/-! ### keyutils.go -/

/-- KeyErr enumerates the error codes of the key import helpers. -/
inductive KeyErr where
  | base64Decode
  | hexDecode
  deriving DecidableEq, Repr

/-- KeyToBase64 translates keyutils.go KeyToBase64. -/
def KeyToBase64 (key : List Nat) : List Nat := base64EncodeStd key

/-- KeyFromBase64 translates keyutils.go KeyFromBase64. -/
def KeyFromBase64 (s : List Nat) : Except KeyErr (List Nat) :=
  match base64DecodeStd s with
  | some key => .ok key
  | none => .error .base64Decode

/-- KeyToHex translates keyutils.go KeyToHex. -/
def KeyToHex (key : List Nat) : List Nat := hexEncode key

/-- KeyFromHex translates keyutils.go KeyFromHex. -/
def KeyFromHex (s : List Nat) : Except KeyErr (List Nat) :=
  match hexDecode s with
  | some key => .ok key
  | none => .error .hexDecode

/-- GetKeyFingerprint translates keyutils.go GetKeyFingerprint: empty input
gives the empty string, otherwise the first 8 bytes of the SHA-256 digest are
formatted in hex (Go formats with `%016x`, which on an 8-byte slice coincides
with plain per-byte lowercase hex). -/
def GetKeyFingerprint (key : List Nat) : List Nat :=
  if key.length = 0 then []
  else hexEncode ((sha256 key).take 8)

/-! ### Concrete fixtures used by witness and counterexample theorems -/

/-- zeroAes instantiates the AES block-function parameter with a function
satisfying the block contract (16 zero bytes per block), used to evaluate the
model on concrete inputs. -/
def zeroAes : List Nat → List Nat → List Nat := fun _ _ => List.replicate 16 0

/-- argObserve instantiates the Argon2id parameter with a function recording
the numeric arguments it receives, used to observe parameter resolution. -/
def argObserve : ArgonFn := fun _ _ time memory threads keyLen =>
  [time, memory, threads, keyLen]

/-- stubArgon instantiates the Argon2id parameter with a function satisfying
the output-length contract. -/
def stubArgon : ArgonFn := fun _ _ _ _ _ keyLen => List.replicate keyLen 0

/-! ## Lemmas and theorems -/

set_option maxRecDepth 4000

/-- shiftLeft_lor_eq_add turns a disjoint bitwise or into an addition: oring a
value shifted left by `k` bits with a value below `2^k` is plain addition. -/
theorem shiftLeft_lor_eq_add : ∀ (k x y : Nat), y < 2 ^ k → (x <<< k) ||| y = x * 2 ^ k + y := by
  intro k
  induction k with
  | zero =>
      intro x y hy
      have hy0 : y = 0 := by omega
      subst hy0
      simp [Nat.shiftLeft_zero]
  | succ k ih =>
      intro x y hy
      have hd : Nat.bit y.bodd y.div2 = y := Nat.bit_decomp y
      have hdv : y.div2 = y / 2 := Nat.div2_val y
      have hbv : (Nat.bit y.bodd y.div2 : Nat) = 2 * y.div2 + y.bodd.toNat := Nat.bit_val _ _
      have hx : x <<< (k + 1) = Nat.bit false (x <<< k) := by
        rw [Nat.bit_val, Nat.shiftLeft_eq, Nat.shiftLeft_eq, Nat.pow_succ]
        simp
        ring
      have hy' : y.div2 < 2 ^ k := by
        rw [hdv]
        rw [Nat.div_lt_iff_lt_mul (by omega)]
        calc y < 2 ^ (k + 1) := hy
        _ = 2 ^ k * 2 := by rw [Nat.pow_succ]
      calc x <<< (k + 1) ||| y
          = Nat.bit false (x <<< k) ||| Nat.bit y.bodd y.div2 := by rw [hx, hd]
        _ = Nat.bit (false || y.bodd) ((x <<< k) ||| y.div2) := Nat.lor_bit _ _ _ _
        _ = Nat.bit y.bodd (x * 2 ^ k + y.div2) := by rw [Bool.false_or, ih x y.div2 hy']
        _ = x * 2 ^ (k + 1) + y := by
            rw [Nat.bit_val, Nat.pow_succ]
            have hyv : y = 2 * y.div2 + y.bodd.toNat := by rw [← hbv, hd]
            have hlin : x * (2 ^ k * 2) = 2 * (x * 2 ^ k) := by ring
            omega

/-- and3_eq rewrites masking with 3 as reduction modulo 4. -/
theorem and3_eq (a : Nat) : a &&& 3 = a % 4 := by
  have h := Nat.and_pow_two_sub_one_eq_mod a 2
  norm_num at h
  exact h

/-- and15_eq rewrites masking with 15 as reduction modulo 16. -/
theorem and15_eq (a : Nat) : a &&& 15 = a % 16 := by
  have h := Nat.and_pow_two_sub_one_eq_mod a 4
  norm_num at h
  exact h

/-- and63_eq rewrites masking with 63 as reduction modulo 64. -/
theorem and63_eq (a : Nat) : a &&& 63 = a % 64 := by
  have h := Nat.and_pow_two_sub_one_eq_mod a 6
  norm_num at h
  exact h

/-- shr2_eq rewrites a right shift by 2 as division by 4. -/
theorem shr2_eq (a : Nat) : a >>> 2 = a / 4 := by
  rw [Nat.shiftRight_eq_div_pow]

/-- shr4_eq rewrites a right shift by 4 as division by 16. -/
theorem shr4_eq (a : Nat) : a >>> 4 = a / 16 := by
  rw [Nat.shiftRight_eq_div_pow]

/-- shr6_eq rewrites a right shift by 6 as division by 64. -/
theorem shr6_eq (a : Nat) : a >>> 6 = a / 64 := by
  rw [Nat.shiftRight_eq_div_pow]

/-- shl2_eq rewrites a left shift by 2 as multiplication by 4. -/
theorem shl2_eq (a : Nat) : a <<< 2 = a * 4 := by
  rw [Nat.shiftLeft_eq]

/-- shl4_eq rewrites a left shift by 4 as multiplication by 16. -/
theorem shl4_eq (a : Nat) : a <<< 4 = a * 16 := by
  rw [Nat.shiftLeft_eq]

/-- shl6_eq rewrites a left shift by 6 as multiplication by 64. -/
theorem shl6_eq (a : Nat) : a <<< 6 = a * 64 := by
  rw [Nat.shiftLeft_eq]

/-- lor4_eq turns `x * 4 ||| y` with `y < 4` into addition. -/
theorem lor4_eq (x y : Nat) (hy : y < 4) : (x * 4) ||| y = x * 4 + y := by
  have h := shiftLeft_lor_eq_add 2 x y (by omega)
  rw [Nat.shiftLeft_eq] at h
  norm_num at h
  exact h

/-- lor16_eq turns `x * 16 ||| y` with `y < 16` into addition. -/
theorem lor16_eq (x y : Nat) (hy : y < 16) : (x * 16) ||| y = x * 16 + y := by
  have h := shiftLeft_lor_eq_add 4 x y (by omega)
  rw [Nat.shiftLeft_eq] at h
  norm_num at h
  exact h

/-- lor64_eq turns `x * 64 ||| y` with `y < 64` into addition. -/
theorem lor64_eq (x y : Nat) (hy : y < 64) : (x * 64) ||| y = x * 64 + y := by
  have h := shiftLeft_lor_eq_add 6 x y (by omega)
  rw [Nat.shiftLeft_eq] at h
  norm_num at h
  exact h

/-- b64_dec_enc states the base64 decode map inverts the encode table on every
6-bit value. -/
theorem b64_dec_enc {s : Nat} (hs : s < 64) : base64DecChar (base64EncChar s) = some s := by
  have h : ∀ x : Fin 64, base64DecChar (base64EncChar x.val) = some x.val := by decide
  exact h ⟨s, hs⟩

/-- b64_enc_ne_pad states the encode table never produces the padding
character. -/
theorem b64_enc_ne_pad {s : Nat} (hs : s < 64) : base64EncChar s ≠ padByte := by
  have h : ∀ x : Fin 64, base64EncChar x.val ≠ padByte := by decide
  exact h ⟨s, hs⟩

/-- b64_s0_lt bounds the first sextet of an encoded group. -/
theorem b64_s0_lt {a : Nat} (ha : a < 256) : a >>> 2 < 64 := by
  rw [shr2_eq]; omega

/-- b64_s1_lt bounds the second sextet of an encoded group. -/
theorem b64_s1_lt {a b : Nat} (ha : a < 256) (hb : b < 256) :
    ((a &&& 3) <<< 4) ||| (b >>> 4) < 64 := by
  rw [and3_eq, shl4_eq, shr4_eq, lor16_eq _ _ (by omega)]; omega

/-- b64_s1t_lt bounds the second sextet of a final 1-byte group. -/
theorem b64_s1t_lt {a : Nat} (ha : a < 256) : (a &&& 3) <<< 4 < 64 := by
  rw [and3_eq, shl4_eq]; omega

/-- b64_s2_lt bounds the third sextet of an encoded group. -/
theorem b64_s2_lt {b c : Nat} (hb : b < 256) (hc : c < 256) :
    ((b &&& 15) <<< 2) ||| (c >>> 6) < 64 := by
  rw [and15_eq, shl2_eq, shr6_eq, lor4_eq _ _ (by omega)]; omega

/-- b64_s2t_lt bounds the third sextet of a final 2-byte group. -/
theorem b64_s2t_lt {b : Nat} (hb : b < 256) : (b &&& 15) <<< 2 < 64 := by
  rw [and15_eq, shl2_eq]; omega

/-- b64_s3_lt bounds the fourth sextet of an encoded group. -/
theorem b64_s3_lt (c : Nat) : c &&& 63 < 64 := by
  rw [and63_eq]; omega

/-- b64_byte0 states the decoder recombines the first byte of a 3-byte
group. -/
theorem b64_byte0 {a b : Nat} (ha : a < 256) (hb : b < 256) :
    ((a >>> 2) <<< 2) ||| ((((a &&& 3) <<< 4) ||| (b >>> 4)) >>> 4) = a := by
  simp only [shr2_eq, shr4_eq, and3_eq, shl2_eq, shl4_eq]
  rw [lor16_eq _ _ (by omega), lor4_eq _ _ (by omega)]
  omega

/-- b64_byte1 states the decoder recombines the second byte of a 3-byte
group. -/
theorem b64_byte1 {a b c : Nat} (ha : a < 256) (hb : b < 256) (hc : c < 256) :
    (((((a &&& 3) <<< 4) ||| (b >>> 4)) &&& 15) <<< 4) |||
      (((( b &&& 15) <<< 2) ||| (c >>> 6)) >>> 2) = b := by
  simp only [shr2_eq, shr4_eq, shr6_eq, and3_eq, and15_eq, shl2_eq, shl4_eq]
  rw [lor16_eq (a % 4) (b / 16) (by omega), lor4_eq (b % 16) (c / 64) (by omega),
    lor16_eq _ _ (by omega)]
  omega

/-- b64_byte2 states the decoder recombines the third byte of a 3-byte
group. -/
theorem b64_byte2 {b c : Nat} (hb : b < 256) (hc : c < 256) :
    (((((b &&& 15) <<< 2) ||| (c >>> 6)) &&& 3) <<< 6) ||| (c &&& 63) = c := by
  simp only [shr6_eq, and3_eq, and15_eq, and63_eq, shl2_eq, shl6_eq]
  rw [lor4_eq _ _ (by omega), lor64_eq _ _ (by omega)]
  omega

/-- b64_byteT1 states the decoder recombines the byte of a final 1-byte
group. -/
theorem b64_byteT1 {a : Nat} (ha : a < 256) :
    ((a >>> 2) <<< 2) ||| (((a &&& 3) <<< 4) >>> 4) = a := by
  simp only [shr2_eq, shr4_eq, and3_eq, shl2_eq, shl4_eq]
  rw [lor4_eq _ _ (by omega)]
  omega

/-- b64_byteT2 states the decoder recombines the second byte of a final 2-byte
group. -/
theorem b64_byteT2 {a b : Nat} (ha : a < 256) (hb : b < 256) :
    (((((a &&& 3) <<< 4) ||| (b >>> 4)) &&& 15) <<< 4) ||| ((( b &&& 15) <<< 2) >>> 2) = b := by
  simp only [shr2_eq, shr4_eq, and3_eq, and15_eq, shl2_eq, shl4_eq]
  rw [lor16_eq _ _ (by omega), lor16_eq _ _ (by omega)]
  omega

/-- base64_decode_encode states standard base64 decoding inverts encoding on
every byte list. -/
theorem base64_decode_encode : ∀ (k : List Nat), IsBytes k →
    base64DecodeStd (base64EncodeStd k) = some k := by
  intro k
  induction k using base64EncodeStd.induct with
  | case1 => intro _; rfl
  | case2 a =>
      intro hk
      have ha : a < 256 := hk a (by simp)
      simp only [base64EncodeStd, base64DecodeStd, b64_dec_enc (b64_s0_lt ha),
        b64_dec_enc (b64_s1t_lt ha), eq_self_iff_true, if_true, Option.some.injEq,
        List.cons.injEq, and_true]
      exact b64_byteT1 ha
  | case3 a b =>
      intro hk
      have ha : a < 256 := hk a (by simp)
      have hb : b < 256 := hk b (by simp)
      have hne : base64EncChar ((b &&& 15) <<< 2) ≠ padByte := b64_enc_ne_pad (b64_s2t_lt hb)
      simp only [base64EncodeStd, base64DecodeStd, b64_dec_enc (b64_s0_lt ha),
        b64_dec_enc (b64_s1_lt ha hb), b64_dec_enc (b64_s2t_lt hb), hne, eq_self_iff_true,
        if_true, if_false, Option.some.injEq, List.cons.injEq, and_true]
      exact And.intro (b64_byte0 ha hb) (b64_byteT2 ha hb)
  | case4 a b c rest ih =>
      intro hk
      have ha : a < 256 := hk a (by simp)
      have hb : b < 256 := hk b (by simp)
      have hc : c < 256 := hk c (by simp)
      have hrest : IsBytes rest := fun x hx => hk x (by simp [hx])
      have hne : base64EncChar (c &&& 63) ≠ padByte := b64_enc_ne_pad (b64_s3_lt c)
      simp only [base64EncodeStd, base64DecodeStd, b64_dec_enc (b64_s0_lt ha),
        b64_dec_enc (b64_s1_lt ha hb), b64_dec_enc (b64_s2_lt hb hc),
        b64_dec_enc (b64_s3_lt c), hne, eq_self_iff_true, if_true, if_false, ih hrest,
        Option.map_some', Option.some.injEq, List.cons.injEq, and_true]
      exact And.intro (b64_byte0 ha hb) (And.intro (b64_byte1 ha hb hc) (b64_byte2 hb hc))

/-- hex_dec_digit states the hex decode map inverts the digit table on every
4-bit value. -/
theorem hex_dec_digit {n : Nat} (hn : n < 16) : hexDecChar (hexDigit n) = some n := by
  have h : ∀ x : Fin 16, hexDecChar (hexDigit x.val) = some x.val := by decide
  exact h ⟨n, hn⟩

/-- hex_byte states the hex decoder recombines a byte from its two digits. -/
theorem hex_byte {b : Nat} (hb : b < 256) : ((b >>> 4) <<< 4) ||| (b &&& 15) = b := by
  simp only [shr4_eq, and15_eq, shl4_eq]
  rw [lor16_eq _ _ (by omega)]
  omega

/-- hex_hi_lt bounds the high nibble of a byte. -/
theorem hex_hi_lt {b : Nat} (hb : b < 256) : b >>> 4 < 16 := by
  rw [shr4_eq]; omega

/-- hex_lo_lt bounds the low nibble of a byte. -/
theorem hex_lo_lt (b : Nat) : b &&& 15 < 16 := by
  rw [and15_eq]; omega

/-- hex_decode_encode states hex decoding inverts encoding on every byte
list. -/
theorem hex_decode_encode : ∀ (k : List Nat), IsBytes k →
    hexDecode (hexEncode k) = some k := by
  intro k
  induction k with
  | nil => intro _; rfl
  | cons b rest ih =>
      intro hk
      have hb : b < 256 := hk b (by simp)
      have hrest : IsBytes rest := fun x hx => hk x (by simp [hx])
      simp only [hexEncode, hexDecode, hex_dec_digit (hex_hi_lt hb),
        hex_dec_digit (hex_lo_lt b), ih hrest, Option.map_some', Option.some.injEq,
        List.cons.injEq, and_true]
      exact hex_byte hb

/-- xor_byte_lt states the xor of two bytes is a byte. -/
theorem xor_byte_lt {x y : Nat} (hx : x < 256) (hy : y < 256) : x ^^^ y < 256 := by
  have h : x ^^^ y < 2 ^ 8 := Nat.xor_lt_two_pow (by omega) (by omega)
  omega

/-- isBytes_append combines byte bounds across concatenation. -/
theorem isBytes_append {a b : List Nat} (ha : IsBytes a) (hb : IsBytes b) :
    IsBytes (a ++ b) := by
  intro x hx
  rcases List.mem_append.mp hx with h | h
  · exact ha x h
  · exact hb x h

/-- natToBytesBE_length states the byte serialisation has the requested
width. -/
theorem natToBytesBE_length (w n : Nat) : (natToBytesBE w n).length = w := by
  simp [natToBytesBE]

/-- natToBytesBE_isBytes states the byte serialisation produces bytes. -/
theorem natToBytesBE_isBytes (w n : Nat) : IsBytes (natToBytesBE w n) := by
  intro x hx
  simp only [natToBytesBE, List.mem_map, List.mem_range] at hx
  obtain ⟨i, _, hxe⟩ := hx
  omega

/-- xorBytes_length states pointwise xor truncates to the shorter operand. -/
theorem xorBytes_length (a b : List Nat) : (xorBytes a b).length = min a.length b.length := by
  simp [xorBytes]

/-- xorBytes_isBytes states pointwise xor of bytes yields bytes. -/
theorem xorBytes_isBytes : ∀ {a b : List Nat}, IsBytes a → IsBytes b →
    IsBytes (xorBytes a b) := by
  intro a
  induction a with
  | nil => intro b _ _ x hx; simp [xorBytes] at hx
  | cons p ps ih =>
      intro b ha hb x hx
      cases b with
      | nil => simp [xorBytes] at hx
      | cons q qs =>
          simp only [xorBytes, List.zipWith_cons_cons, List.mem_cons] at hx
          rcases hx with h | h
          · subst h
            exact xor_byte_lt (ha p (by simp)) (hb q (by simp))
          · exact ih (fun y hy => ha y (by simp [hy])) (fun y hy => hb y (by simp [hy])) x h

/-- xorBytes_cancel states xoring twice with the same (long enough) keystream
restores the input. -/
theorem xorBytes_cancel : ∀ (a b : List Nat), a.length ≤ b.length →
    xorBytes (xorBytes a b) b = a := by
  intro a
  induction a with
  | nil => intro b _; rfl
  | cons p ps ih =>
      intro b h
      cases b with
      | nil => simp at h
      | cons q qs =>
          simp only [xorBytes, List.zipWith_cons_cons, List.cons.injEq]
          refine ⟨Nat.xor_cancel_right q p, ?_⟩
          have := ih qs (by simpa using h)
          simpa [xorBytes] using this

/-- gcmCounterBlocks_length states `n` counter blocks hold `16 * n` bytes when
the block function keeps its contract. -/
theorem gcmCounterBlocks_length (E : List Nat → List Nat) (h16 : ∀ b, (E b).length = 16) :
    ∀ (n : Nat) (ctr : List Nat), (gcmCounterBlocks E ctr n).length = 16 * n := by
  intro n
  induction n with
  | zero => intro ctr; rfl
  | succ n ih =>
      intro ctr
      simp [gcmCounterBlocks, h16, ih]
      ring

/-- gcmCounterBlocks_isBytes states counter blocks are bytes when the block
function produces bytes. -/
theorem gcmCounterBlocks_isBytes (E : List Nat → List Nat) (hEb : ∀ b, IsBytes (E b)) :
    ∀ (n : Nat) (ctr : List Nat), IsBytes (gcmCounterBlocks E ctr n) := by
  intro n
  induction n with
  | zero => intro ctr x hx; simp [gcmCounterBlocks] at hx
  | succ n ih =>
      intro ctr
      exact isBytes_append (hEb ctr) (ih (gcmInc32 ctr))

/-- gcmKeystream_length states the keystream has the requested length. -/
theorem gcmKeystream_length (E : List Nat → List Nat) (h16 : ∀ b, (E b).length = 16)
    (ctr : List Nat) (n : Nat) : (gcmKeystream E ctr n).length = n := by
  simp only [gcmKeystream, List.length_take, gcmCounterBlocks_length E h16]
  have := Nat.div_add_mod (n + 15) 16
  have h2 := Nat.mod_lt (n + 15) (y := 16) (by omega)
  omega

/-- gcmKeystream_isBytes states the keystream consists of bytes. -/
theorem gcmKeystream_isBytes (E : List Nat → List Nat) (hEb : ∀ b, IsBytes (E b))
    (ctr : List Nat) (n : Nat) : IsBytes (gcmKeystream E ctr n) := by
  intro x hx
  exact gcmCounterBlocks_isBytes E hEb _ ctr x (List.mem_of_mem_take hx)

/-- gcmSeal_length states a sealed message is the plaintext length plus the
16-byte tag. -/
theorem gcmSeal_length (E : List Nat → List Nat) (h16 : ∀ b, (E b).length = 16)
    (nonce pt : List Nat) : (gcmSeal E nonce pt).length = pt.length + 16 := by
  simp only [gcmSeal, List.length_append, xorBytes_length, natToBytesBE_length,
    gcmKeystream_length E h16, h16]
  omega

/-- gcmSeal_isBytes states a sealed message consists of bytes. -/
theorem gcmSeal_isBytes (E : List Nat → List Nat) (hEb : ∀ b, IsBytes (E b))
    {pt : List Nat} (hpt : IsBytes pt) (nonce : List Nat) : IsBytes (gcmSeal E nonce pt) := by
  simp only [gcmSeal]
  exact isBytes_append
    (xorBytes_isBytes hpt (gcmKeystream_isBytes E hEb _ _))
    (xorBytes_isBytes (natToBytesBE_isBytes _ _) (hEb _))

/-- gcm_open_seal states opening a freshly sealed message under the same block
function and nonce authenticates and restores the plaintext. -/
theorem gcm_open_seal (E : List Nat → List Nat) (h16 : ∀ b, (E b).length = 16)
    (nonce pt : List Nat) : gcmOpen E nonce (gcmSeal E nonce pt) = some pt := by
  have hks : (gcmKeystream E (gcmInc32 (gcmJ0 nonce)) pt.length).length = pt.length :=
    gcmKeystream_length E h16 _ _
  have hct : (xorBytes pt (gcmKeystream E (gcmInc32 (gcmJ0 nonce)) pt.length)).length
      = pt.length := by
    rw [xorBytes_length, hks]
    omega
  have htag : (xorBytes (natToBytesBE 16 (gcmAuth (bytesToNatBE (E (List.replicate 16 0)))
      (xorBytes pt (gcmKeystream E (gcmInc32 (gcmJ0 nonce)) pt.length))))
      (E (gcmJ0 nonce))).length = 16 := by
    rw [xorBytes_length, natToBytesBE_length, h16]
    omega
  simp only [gcmSeal, gcmOpen, gcmTagSize]
  rw [List.length_append, hct, htag]
  rw [if_neg (by omega)]
  have hidx : pt.length + 16 - 16
      = (xorBytes pt (gcmKeystream E (gcmInc32 (gcmJ0 nonce)) pt.length)).length := by
    rw [hct]
    omega
  rw [hidx, List.take_left, List.drop_left]
  rw [if_pos rfl, hct]
  exact congrArg some (xorBytes_cancel pt _ (by omega))

/-- base64EncodeStd_ne_nil states encoding a non-empty byte list yields a
non-empty string. -/
theorem base64EncodeStd_ne_nil : ∀ (l : List Nat), l ≠ [] → base64EncodeStd l ≠ [] := by
  intro l hl
  match l with
  | [] => exact absurd rfl hl
  | [a] => simp [base64EncodeStd]
  | [a, b] => simp [base64EncodeStd]
  | a :: b :: c :: rest => simp [base64EncodeStd]

/-- C1: for every 32-byte key, every plaintext byte string p (including the
empty one), and every value the freshly generated 12-byte nonce may take,
decrypting the output of encryption with the same key returns p. The AES-256
block primitive enters as the function argument `aes` constrained only by its
interface contract (16-byte blocks of bytes). -/
theorem encrypt_then_decrypt_roundtrip (aes : List Nat → List Nat → List Nat)
    (key nonce p s : List Nat)
    (hkey : key.length = 32) (hnlen : nonce.length = 12)
    (hnb : IsBytes nonce) (hpb : IsBytes p)
    (h16 : ∀ b, (aes key b).length = 16) (hEb : ∀ b, IsBytes (aes key b))
    (henc : EncryptBytes aes nonce p key = .ok s) :
    DecryptBytes aes s key = .ok p := by
  have hkeq : key.length = KeySize := hkey
  rw [EncryptBytes, if_neg (by rw [hkeq]; simp)] at henc
  have hs : s = base64EncodeStd (nonce ++ gcmSeal (aes key) nonce p) := by
    exact (Except.ok.injEq _ _).mp henc.symm
  subst hs
  have henv : IsBytes (nonce ++ gcmSeal (aes key) nonce p) :=
    isBytes_append hnb (gcmSeal_isBytes (aes key) hEb hpb nonce)
  have henvlen : (nonce ++ gcmSeal (aes key) nonce p).length = p.length + 28 := by
    rw [List.length_append, hnlen, gcmSeal_length (aes key) h16]
    omega
  rw [DecryptBytes, if_neg (by rw [hkeq]; simp)]
  rw [if_neg (base64EncodeStd_ne_nil _ (by
    intro h
    rw [h] at henvlen
    simp at henvlen))]
  have hlen_not : ¬ (nonce ++ gcmSeal (aes key) nonce p).length < gcmNonceSize := by
    rw [henvlen, gcmNonceSize]; omega
  have htake : (nonce ++ gcmSeal (aes key) nonce p).take gcmNonceSize = nonce := by
    have h12 : gcmNonceSize = nonce.length := by rw [hnlen]; rfl
    rw [h12, List.take_left]
  have hdrop : (nonce ++ gcmSeal (aes key) nonce p).drop gcmNonceSize
      = gcmSeal (aes key) nonce p := by
    have h12 : gcmNonceSize = nonce.length := by rw [hnlen]; rfl
    rw [h12, List.drop_left]
  simp only [base64_decode_encode _ henv, hlen_not, if_false, htake, hdrop,
    gcm_open_seal (aes key) h16]

/-- C1 witness: a concrete roundtrip through the model at a 32-byte zero key,
zero nonce and the plaintext "hi". -/
theorem encrypt_then_decrypt_roundtrip_witness :
    DecryptBytes zeroAes
      [65, 65, 65, 65, 65, 65, 65, 65, 65, 65, 65, 65, 65, 65, 65, 65, 97, 71, 107, 65,
       65, 65, 65, 65, 65, 65, 65, 65, 65, 65, 65, 65, 65, 65, 65, 65, 65, 65, 65, 65]
      (List.replicate 32 0) = .ok [104, 105] := by
  have hz : IsBytes (List.replicate 16 0) := by decide
  exact encrypt_then_decrypt_roundtrip zeroAes (List.replicate 32 0) (List.replicate 12 0)
    [104, 105]
    [65, 65, 65, 65, 65, 65, 65, 65, 65, 65, 65, 65, 65, 65, 65, 65, 97, 71, 107, 65,
     65, 65, 65, 65, 65, 65, 65, 65, 65, 65, 65, 65, 65, 65, 65, 65, 65, 65, 65, 65]
    rfl rfl (by decide) (by decide) (fun b => rfl) (fun b => hz) rfl

/-- C3: for every plaintext and every encrypted text, Encrypt and Decrypt with
a key whose length is not exactly 32 bytes return the invalid-key-size error
and no output; with a 32-byte key the key-size check passes and neither
operation fails for that reason. -/
theorem key_size_enforcement (aes : List Nat → List Nat → List Nat)
    (nonce plaintext encryptedText key : List Nat) :
    (key.length ≠ 32 →
      Encrypt aes nonce plaintext key = .error .invalidKeySize ∧
      Decrypt aes encryptedText key = .error .invalidKeySize) ∧
    (key.length = 32 →
      Encrypt aes nonce plaintext key ≠ .error .invalidKeySize ∧
      Decrypt aes encryptedText key ≠ .error .invalidKeySize) := by
  constructor
  · intro h
    constructor
    · simp [Encrypt, EncryptBytes, KeySize, h]
    · simp [Decrypt, DecryptBytes, KeySize, h]
  · intro h
    constructor
    · simp [Encrypt, EncryptBytes, KeySize, h]
    · rw [Decrypt, DecryptBytes, if_neg (by simp [KeySize, h])]
      split
      · simp
      · split
        · simp
        · split
          · simp
          · split
            · simp
            · simp

/-- C3 witness: concrete keys of length 16 and 32. -/
theorem key_size_enforcement_witness :
    (Encrypt zeroAes [] [] (List.replicate 16 0) = .error .invalidKeySize ∧
      Decrypt zeroAes [] (List.replicate 16 0) = .error .invalidKeySize) ∧
    (Encrypt zeroAes [] [] (List.replicate 32 0) ≠ .error .invalidKeySize ∧
      Decrypt zeroAes [65, 65, 65, 65] (List.replicate 32 0) ≠ .error .invalidKeySize) := by
  refine ⟨?_, ?_⟩
  · exact (key_size_enforcement zeroAes [] [] [] (List.replicate 16 0)).1 (by decide)
  · exact (key_size_enforcement zeroAes [] [] [65, 65, 65, 65]
      (List.replicate 32 0)).2 (by decide)

/-- C4: for every 32-byte key, Decrypt applied to a non-empty input whose
decoded envelope is shorter than the 12-byte nonce length returns the
ciphertext-too-short error (it never panics — the model is a total function —
and returns no plaintext bytes). -/
theorem decrypt_envelope_too_short (aes : List Nat → List Nat → List Nat)
    (key s c : List Nat) (hkey : key.length = 32) (hs : s ≠ [])
    (hdec : base64DecodeStd s = some c) (hshort : c.length < 12) :
    DecryptBytes aes s key = .error .ciphertextShort := by
  rw [DecryptBytes, if_neg (by simp [KeySize, hkey]), if_neg hs, hdec]
  simp [gcmNonceSize, hshort]

/-- C4 witness: the four-character input "AAAA" decodes to a 3-byte envelope,
shorter than the nonce. -/
theorem decrypt_envelope_too_short_witness :
    DecryptBytes zeroAes [65, 65, 65, 65] (List.replicate 32 0) = .error .ciphertextShort :=
  decrypt_envelope_too_short zeroAes (List.replicate 32 0) [65, 65, 65, 65] [0, 0, 0]
    (by decide) (by decide) (by decide) (by decide)

/-- C10: for every byte sequence k, including the empty one, the key
text-encoding roundtrips are identities: KeyFromBase64 after KeyToBase64 and
KeyFromHex after KeyToHex both return k without error. -/
theorem key_text_encoding_roundtrip (k : List Nat) (hk : IsBytes k) :
    KeyFromBase64 (KeyToBase64 k) = .ok k ∧ KeyFromHex (KeyToHex k) = .ok k := by
  constructor
  · rw [KeyFromBase64, KeyToBase64, base64_decode_encode k hk]
  · rw [KeyFromHex, KeyToHex, hex_decode_encode k hk]

/-- C10 witness: a concrete roundtrip, including a byte at each boundary. -/
theorem key_text_encoding_roundtrip_witness :
    KeyFromBase64 (KeyToBase64 [0, 127, 255]) = .ok [0, 127, 255] ∧
    KeyFromHex (KeyToHex [0, 127, 255]) = .ok [0, 127, 255] :=
  key_text_encoding_roundtrip [0, 127, 255] (by decide)

/-- C6: DeriveKey returns emptyPassword exactly when the password is empty,
emptySalt exactly when the password is non-empty and the salt empty,
invalidKeyLen exactly when both are non-empty and keyLen is non-positive (the
checks run in this order, before any call to the primitive), and on non-empty
password, non-empty salt and positive keyLen the call succeeds. -/
theorem derive_key_validation (idKey : ArgonFn) (password salt : List Nat) (keyLen : Int)
    (params : Option KDFParams) :
    (DeriveKey idKey password salt keyLen params = .error .emptyPassword ↔ password = []) ∧
    (DeriveKey idKey password salt keyLen params = .error .emptySalt ↔
      password ≠ [] ∧ salt = []) ∧
    (DeriveKey idKey password salt keyLen params = .error .invalidKeyLen ↔
      password ≠ [] ∧ salt ≠ [] ∧ keyLen ≤ 0) ∧
    (password ≠ [] → salt ≠ [] → 0 < keyLen →
      (DeriveKey idKey password salt keyLen params).isOk = true) := by
  have hpz : password.length = 0 ↔ password = [] := List.length_eq_zero
  have hsz : salt.length = 0 ↔ salt = [] := List.length_eq_zero
  unfold DeriveKey
  by_cases hp : password.length = 0
  · rw [if_pos hp]
    simp_all
  · rw [if_neg hp]
    by_cases hs : salt.length = 0
    · rw [if_pos hs]
      simp_all
    · rw [if_neg hs]
      by_cases hk : keyLen ≤ 0
      · rw [if_pos hk]
        simp_all [Except.isOk, Except.toBool]
      · rw [if_neg hk]
        simp_all [Except.isOk, Except.toBool]

/-- C6 witness: each validation outcome at a concrete input. -/
theorem derive_key_validation_witness :
    (DeriveKey stubArgon [] [2] 32 none = .error .emptyPassword) ∧
    (DeriveKey stubArgon [1] [] 32 none = .error .emptySalt) ∧
    (DeriveKey stubArgon [1] [2] 0 none = .error .invalidKeyLen) ∧
    (DeriveKey stubArgon [1] [2] 32 none).isOk = true := by
  refine ⟨?_, ?_, ?_, ?_⟩
  · exact (derive_key_validation stubArgon [] [2] 32 none).1.mpr rfl
  · exact (derive_key_validation stubArgon [1] [] 32 none).2.1.mpr (by decide)
  · exact (derive_key_validation stubArgon [1] [2] 0 none).2.2.1.mpr (by decide)
  · exact (derive_key_validation stubArgon [1] [2] 32 none).2.2.2 (by decide) (by decide)
      (by decide)

/-- sha256Compress_length states one compression round keeps the 8-word
state. -/
theorem sha256Compress_length (hst block : List Nat) (h : hst.length = 8) :
    (sha256Compress hst block).length = 8 := by
  simp [sha256Compress, List.length_zipWith, h]

/-- sha256BlocksN_length states the block loop keeps the 8-word state. -/
theorem sha256BlocksN_length : ∀ (n : Nat) (hst msg : List Nat), hst.length = 8 →
    (sha256BlocksN hst msg n).length = 8 := by
  intro n
  induction n with
  | zero => intro hst msg h; exact h
  | succ n ih => intro hst msg h; exact ih _ _ (sha256Compress_length _ _ h)

/-- map_natToBytesBE_flatten_length counts the bytes of a serialised word
list. -/
theorem map_natToBytesBE_flatten_length : ∀ (ws : List Nat),
    ((ws.map (natToBytesBE 4)).flatten).length = 4 * ws.length := by
  intro ws
  induction ws with
  | nil => rfl
  | cons w ws ih =>
      simp only [List.map_cons, List.flatten_cons, List.length_append, natToBytesBE_length,
        ih, List.length_cons]
      ring

/-- sha256_length states the SHA-256 digest has 32 bytes. -/
theorem sha256_length (msg : List Nat) : (sha256 msg).length = 32 := by
  rw [sha256, map_natToBytesBE_flatten_length, sha256Blocks,
    sha256BlocksN_length _ _ _ (by rfl)]

/-- sha256_isBytes states the SHA-256 digest consists of bytes. -/
theorem sha256_isBytes (msg : List Nat) : IsBytes (sha256 msg) := by
  intro x hx
  rw [sha256] at hx
  simp only [List.mem_flatten, List.mem_map] at hx
  obtain ⟨l, ⟨w, _, hw⟩, hxl⟩ := hx
  subst hw
  exact natToBytesBE_isBytes _ _ x hxl

/-- hmacSha256_length states an HMAC-SHA256 tag has 32 bytes. -/
theorem hmacSha256_length (key msg : List Nat) : (hmacSha256 key msg).length = 32 := by
  simp [hmacSha256, sha256_length]

/-- pbkdf2Iter_length states the iteration accumulator keeps 32 bytes. -/
theorem pbkdf2Iter_length (password : List Nat) :
    ∀ (n : Nat) (u t : List Nat), t.length = 32 →
      ((pbkdf2Iter password n (u, t)).2).length = 32 := by
  intro n
  induction n with
  | zero => intro u t h; exact h
  | succ n ih =>
      intro u t h
      exact ih _ _ (by rw [xorBytes_length, hmacSha256_length, h]; omega)

/-- pbkdf2Block_length states every PBKDF2 block has 32 bytes. -/
theorem pbkdf2Block_length (password salt : List Nat) (iter i : Nat) :
    (pbkdf2Block password salt iter i).length = 32 :=
  pbkdf2Iter_length password (iter - 1) _ _ (hmacSha256_length _ _)

/-- pbkdf2BlocksFrom_length counts the bytes of `n` concatenated blocks. -/
theorem pbkdf2BlocksFrom_length (password salt : List Nat) (iter : Nat) :
    ∀ (n i : Nat), (pbkdf2BlocksFrom password salt iter i n).length = 32 * n := by
  intro n
  induction n with
  | zero => intro i; rfl
  | succ n ih =>
      intro i
      simp only [pbkdf2BlocksFrom, List.length_append, pbkdf2Block_length, ih]
      ring

/-- pbkdf2Key_length states the derived key has exactly the requested
length. -/
theorem pbkdf2Key_length (password salt : List Nat) (iter keyLen : Nat) :
    (pbkdf2Key password salt iter keyLen).length = keyLen := by
  rw [pbkdf2Key, List.length_take, pbkdf2BlocksFrom_length]
  have := Nat.div_add_mod (keyLen + 31) 32
  have h2 := Nat.mod_lt (keyLen + 31) (y := 32) (by omega)
  omega

/-- C7: DeriveKeyPBKDF2 validates its four inputs in order with distinct
errors, and on valid inputs returns the PBKDF2-HMAC-SHA256 derivation over
iterationCount rounds, whose length is exactly keyLen. -/
theorem derive_key_pbkdf2_spec (password salt : List Nat) (iterations keyLen : Int) :
    (DeriveKeyPBKDF2 password salt iterations keyLen = .error .emptyPassword ↔
      password = []) ∧
    (DeriveKeyPBKDF2 password salt iterations keyLen = .error .emptySalt ↔
      password ≠ [] ∧ salt = []) ∧
    (DeriveKeyPBKDF2 password salt iterations keyLen = .error .invalidIterations ↔
      password ≠ [] ∧ salt ≠ [] ∧ iterations ≤ 0) ∧
    (DeriveKeyPBKDF2 password salt iterations keyLen = .error .invalidKeyLen ↔
      password ≠ [] ∧ salt ≠ [] ∧ 0 < iterations ∧ keyLen ≤ 0) ∧
    (password ≠ [] → salt ≠ [] → 0 < iterations → 0 < keyLen →
      DeriveKeyPBKDF2 password salt iterations keyLen
        = .ok (pbkdf2Key password salt iterations.toNat keyLen.toNat) ∧
      (pbkdf2Key password salt iterations.toNat keyLen.toNat).length = keyLen.toNat) := by
  have hpz : password.length = 0 ↔ password = [] := List.length_eq_zero
  have hsz : salt.length = 0 ↔ salt = [] := List.length_eq_zero
  unfold DeriveKeyPBKDF2
  by_cases hp : password.length = 0
  · rw [if_pos hp]
    simp_all
  · rw [if_neg hp]
    by_cases hs : salt.length = 0
    · rw [if_pos hs]
      simp_all
    · rw [if_neg hs]
      by_cases hi : iterations ≤ 0
      · rw [if_pos hi]
        simp_all
      · rw [if_neg hi]
        by_cases hk : keyLen ≤ 0
        · rw [if_pos hk]
          simp_all
        · rw [if_neg hk]
          simp_all [pbkdf2Key_length]

/-- C7 witness: two iterations and a 40-byte key crossing a block
boundary. -/
theorem derive_key_pbkdf2_spec_witness :
    DeriveKeyPBKDF2 [1] [2] 2 40 = .ok (pbkdf2Key [1] [2] 2 40) ∧
    (pbkdf2Key [1] [2] 2 40).length = 40 :=
  (derive_key_pbkdf2_spec [1] [2] 2 40).2.2.2.2 (by decide) (by decide) (by decide)
    (by decide)

/-- hexEncode_length states hex encoding yields two characters per byte. -/
theorem hexEncode_length : ∀ (l : List Nat), (hexEncode l).length = 2 * l.length := by
  intro l
  induction l with
  | nil => rfl
  | cons b r ih =>
      simp only [hexEncode, List.length_cons, ih]
      ring

/-- hexDigit_range states a hex digit is an ASCII digit or a lowercase letter
between a and f. -/
theorem hexDigit_range {n : Nat} (hn : n < 16) :
    (48 ≤ hexDigit n ∧ hexDigit n ≤ 57) ∨ (97 ≤ hexDigit n ∧ hexDigit n ≤ 102) := by
  rw [hexDigit]
  split <;> omega

/-- hexEncode_charset states hex text consists of lowercase hex digit
characters. -/
theorem hexEncode_charset : ∀ (l : List Nat), IsBytes l →
    ∀ c ∈ hexEncode l, (48 ≤ c ∧ c ≤ 57) ∨ (97 ≤ c ∧ c ≤ 102) := by
  intro l
  induction l with
  | nil => intro _ c hc; simp [hexEncode] at hc
  | cons b r ih =>
      intro hb c hc
      have hbb : b < 256 := hb b (by simp)
      simp only [hexEncode, List.mem_cons] at hc
      rcases hc with h | h | h
      · subst h; exact hexDigit_range (hex_hi_lt hbb)
      · subst h; exact hexDigit_range (hex_lo_lt b)
      · exact ih (fun y hy => hb y (by simp [hy])) c h

/-- C8: GetKeyFingerprint of an empty key is the empty string (and no error:
the function is total); of a non-empty key it is the first 8 bytes of the
SHA-256 digest in fixed-width 16-character lowercase hex. -/
theorem get_key_fingerprint_spec (key : List Nat) :
    (key = [] → GetKeyFingerprint key = []) ∧
    (key ≠ [] →
      GetKeyFingerprint key = hexEncode ((sha256 key).take 8) ∧
      (GetKeyFingerprint key).length = 16 ∧
      ∀ c ∈ GetKeyFingerprint key, (48 ≤ c ∧ c ≤ 57) ∨ (97 ≤ c ∧ c ≤ 102)) := by
  constructor
  · intro h
    subst h
    rfl
  · intro h
    have hne : ¬ key.length = 0 := by simp [List.length_eq_zero, h]
    have hfp : GetKeyFingerprint key = hexEncode ((sha256 key).take 8) := by
      rw [GetKeyFingerprint, if_neg hne]
    refine ⟨hfp, ?_, ?_⟩
    · rw [hfp, hexEncode_length, List.length_take, sha256_length]
      omega
    · rw [hfp]
      exact hexEncode_charset _ (fun x hx => sha256_isBytes key x (List.mem_of_mem_take hx))

/-- C8 witness: the empty key and a concrete one-byte key. -/
theorem get_key_fingerprint_spec_witness :
    GetKeyFingerprint [] = [] ∧ (GetKeyFingerprint [1]).length = 16 :=
  ⟨(get_key_fingerprint_spec []).1 rfl,
    ((get_key_fingerprint_spec [1]).2 (by decide)).2.1⟩

/-- deriveKey_eq_ok reduces DeriveKey on valid inputs to the primitive applied
to the resolved parameters. -/
theorem deriveKey_eq_ok (idKey : ArgonFn) (password salt : List Nat) (keyLen : Int)
    (params : Option KDFParams) (hp0 : ¬ password.length = 0) (hs0 : ¬ salt.length = 0)
    (hk0 : ¬ keyLen ≤ 0) :
    DeriveKey idKey password salt keyLen params = .ok (idKey password salt
      (match params with
        | some p => if 0 < p.Time then p.Time else DefaultTime
        | none => DefaultTime)
      (match params with
        | some p => if 0 < p.Memory then p.Memory * 1024 % 2 ^ 32
            else DefaultMemory * 1024
        | none => DefaultMemory * 1024)
      (match params with
        | some p => if 0 < p.Threads then p.Threads else DefaultThreads
        | none => DefaultThreads)
      (keyLen.toNat % 2 ^ 32)) := by
  unfold DeriveKey
  rw [if_neg hp0, if_neg hs0, if_neg hk0]

/-- C2 counterexample: with Memory = 2^22 MB the uint32 product
`params.Memory * 1024` wraps to 0, so the Argon2id primitive receives memory 0
rather than the claimed mathematical product 2^22 * 1024 = 2^32. The observer
function records the numeric arguments DeriveKey passes to the primitive. -/
theorem derive_key_memory_wrap_cx :
    DeriveKey argObserve [1] [2] 32 (some ⟨0, 2 ^ 22, 0⟩) = .ok [3, 0, 4, 32] ∧
    (2 ^ 22 * 1024 : Nat) ≠ 0 := by
  constructor
  · rfl
  · decide

/-- C2 amended: DeriveKey resolves Time, Memory and Threads independently
(caller-supplied positive value used as given, zero or nil replaced by the
defaults 3, 64 MB, 4), and the resolved memory in MB is multiplied by 1024 —
modulo 2^32, in uint32 arithmetic — before being passed to the Argon2id
primitive, which expects KB (the requested length is likewise passed through
the uint32 conversion). -/
theorem derive_key_param_resolution (idKey : ArgonFn) (password salt : List Nat)
    (keyLen : Int) (params : Option KDFParams)
    (hp : password ≠ []) (hs : salt ≠ []) (hk : 0 < keyLen) :
    DeriveKey idKey password salt keyLen params = .ok (idKey password salt
      (match params with
        | some p => if 0 < p.Time then p.Time else 3
        | none => 3)
      (match params with
        | some p => if 0 < p.Memory then p.Memory * 1024 % 2 ^ 32 else 64 * 1024
        | none => 64 * 1024)
      (match params with
        | some p => if 0 < p.Threads then p.Threads else 4
        | none => 4)
      (keyLen.toNat % 2 ^ 32)) := by
  have hp0 : ¬ password.length = 0 := by simp [List.length_eq_zero, hp]
  have hs0 : ¬ salt.length = 0 := by simp [List.length_eq_zero, hs]
  exact deriveKey_eq_ok idKey password salt keyLen params hp0 hs0 (by omega)

/-- C2 witness: a caller-supplied Time overrides the default while the unset
Memory and Threads fall back to 64 MB (65536 KB) and 4. -/
theorem derive_key_param_resolution_witness :
    DeriveKey argObserve [1] [2] 32 (some ⟨2, 0, 0⟩) = .ok [2, 65536, 4, 32] := by
  rw [derive_key_param_resolution argObserve [1] [2] 32 (some ⟨2, 0, 0⟩)
    (by decide) (by decide) (by decide)]
  rfl

/-- C5 counterexample: at keyLen = 2^32 (a representable value of the 64-bit
Go int argument) the uint32 conversion wraps to 0, so any primitive honouring
the Argon2id output-length contract yields a key of length 0, not 2^32. -/
theorem derive_key_length_cx :
    ArgonLen stubArgon ∧
    DeriveKey stubArgon [1] [2] (2 ^ 32) none = .ok [] ∧
    ([] : List Nat).length ≠ (2 ^ 32 : Int).toNat := by
  refine ⟨fun p s t m th l => ?_, rfl, by decide⟩
  simp [stubArgon]

/-- C5 amended: for every non-empty password, non-empty salt, parameter set,
and positive keyLen below 2^32, the derived key has length exactly keyLen
whenever the Argon2id primitive honours its output-length contract; the
derivation is deterministic — the model is a pure function of its inputs, so
two calls with identical arguments coincide definitionally. -/
theorem derive_key_length (idKey : ArgonFn) (hlen : ArgonLen idKey)
    (password salt : List Nat) (keyLen : Int) (params : Option KDFParams)
    (hp : password ≠ []) (hs : salt ≠ []) (hk : 0 < keyLen) (hk32 : keyLen < 2 ^ 32) :
    (DeriveKey idKey password salt keyLen params).map List.length = .ok keyLen.toNat := by
  have hp0 : ¬ password.length = 0 := by simp [List.length_eq_zero, hp]
  have hs0 : ¬ salt.length = 0 := by simp [List.length_eq_zero, hs]
  have hl : ∀ p s t m th l, (idKey p s t m th l).length = l := hlen
  rw [deriveKey_eq_ok idKey password salt keyLen params hp0 hs0 (by omega)]
  simp [Except.map, hl]
  omega

/-- C5 witness: a 32-byte derivation under the length-honouring stub
primitive. -/
theorem derive_key_length_witness :
    (DeriveKey stubArgon [1] [2] 32 none).map List.length = .ok (32 : Int).toNat :=
  derive_key_length stubArgon (fun p s t m th l => by simp [stubArgon]) [1] [2] 32 none
    (by decide) (by decide) (by decide) (by decide)

/-- C9: the derivation surfaces agree on defaults — explicit parameters
(3, 64, 4) give the same key as nil params, an all-zero KDFParams value gives
the same key as nil params, and DeriveKeyDefault coincides with DeriveKey on
nil params. -/
theorem derive_key_defaults_agree (idKey : ArgonFn) (password salt : List Nat)
    (keyLen : Int) (hp : password ≠ []) (hs : salt ≠ []) (hk : 0 < keyLen) :
    DeriveKeyWithParams idKey password salt 3 64 4 keyLen
      = DeriveKey idKey password salt keyLen none ∧
    DeriveKey idKey password salt keyLen (some ⟨0, 0, 0⟩)
      = DeriveKey idKey password salt keyLen none ∧
    DeriveKeyDefault idKey password salt keyLen
      = DeriveKey idKey password salt keyLen none := by
  have hp0 : ¬ password.length = 0 := by simp [List.length_eq_zero, hp]
  have hs0 : ¬ salt.length = 0 := by simp [List.length_eq_zero, hs]
  refine ⟨?_, ?_, ?_⟩
  · unfold DeriveKeyWithParams
    rw [if_neg hp0, if_neg hs0, if_neg (show ¬ (3 : Int) ≤ 0 by omega),
      if_neg (show ¬ (64 : Int) ≤ 0 by omega), if_neg (show ¬ (4 : Int) ≤ 0 by omega),
      if_neg (show ¬ keyLen ≤ 0 by omega),
      deriveKey_eq_ok idKey password salt keyLen none hp0 hs0 (by omega)]
    rfl
  · rw [deriveKey_eq_ok idKey password salt keyLen (some ⟨0, 0, 0⟩) hp0 hs0 (by omega),
      deriveKey_eq_ok idKey password salt keyLen none hp0 hs0 (by omega)]
    rfl
  · rfl

/-- C9 witness: the three agreements at a concrete input, under the observing
primitive. -/
theorem derive_key_defaults_agree_witness :
    DeriveKeyWithParams argObserve [1] [2] 3 64 4 32
      = DeriveKey argObserve [1] [2] 32 none ∧
    DeriveKey argObserve [1] [2] 32 (some ⟨0, 0, 0⟩)
      = DeriveKey argObserve [1] [2] 32 none ∧
    DeriveKeyDefault argObserve [1] [2] 32 = DeriveKey argObserve [1] [2] 32 none :=
  derive_key_defaults_agree argObserve [1] [2] 32 (by decide) (by decide) (by decide)

end GoCrypto
